import Mathlib

/-!
Shallow embedding of the Discord movie bot (src/main.py).

Python strings are modelled as lists of characters (`Str`).  The three
regular expressions of `MovieBot.convert_drive_url` consist of literal text
followed by a character class `[a-zA-Z0-9_-]+` (pattern 3 additionally has a
lazy `.*?` gap before its `/d/` separator); `re.search` is modelled by
scanning every start position from the left, which matches the
leftmost-match semantics of the Python regex engine, and the greedy `+` is
modelled by taking the maximal run of identifier characters.
-/

/-- Python strings, modelled as lists of characters. -/
abbrev Str := List Char

/-- Coerce a Lean string literal to the `Str` model. -/
def str (s : String) : Str := s.data

/-- The character class `[a-zA-Z0-9_-]` of the Drive file-id group. -/
def isIdChar (c : Char) : Bool := c.isAlpha || c.isDigit || c == '_' || c == '-'

/-- Maximal run of id characters at the front of a string (greedy `+`). -/
def idRun : Str → Str
  | [] => []
  | c :: cs => if isIdChar c then c :: idRun cs else []

/-- Literal match at the front of a string (the regex literal part). -/
def litMatch : Str → Str → Bool
  | [], _ => true
  | _ :: _, [] => false
  | a :: as, b :: bs => a == b && litMatch as bs

/-- Match `lit` followed by one-or-more id characters at the front of `s`,
returning the captured group. -/
def litIdAt (lit s : Str) : Option Str :=
  if litMatch lit s then
    let run := idRun (s.drop lit.length)
    if run = [] then none else some run
  else none

def fileLit : Str := str "https://drive.google.com/file/d/"
def openLit : Str := str "https://drive.google.com/open?id="
def docsLit : Str := str "https://docs.google.com/"
def dSep : Str := str "/d/"
def httpsLit : Str := str "https"

/-- The canonical direct-download host template of `convert_drive_url`. -/
def ucHost : Str := str "https://drive.google.com/uc?export=download&id="

/-- Leftmost search of a literal-then-id-group pattern over a string
(patterns 1 and 2 of `convert_drive_url`). -/
def searchLitId (lit : Str) : Str → Option Str
  | [] => litIdAt lit []
  | c :: rest =>
    match litIdAt lit (c :: rest) with
    | some run => some run
    | none => searchLitId lit rest

/-- The lazy `.*?/d/([a-zA-Z0-9_-]+)` part of pattern 3: try the `/d/`
separator at the current position first, otherwise consume one non-newline
character and continue. -/
def docsTail : Str → Option Str
  | [] => none
  | c :: rest =>
    match litIdAt dSep (c :: rest) with
    | some run => some run
    | none => if c = '\n' then none else docsTail rest

/-- Pattern 3 anchored at the front: the docs literal, then the lazy gap. -/
def matchDocs (s : Str) : Option Str :=
  if litMatch docsLit s then docsTail (s.drop docsLit.length) else none

/-- Leftmost search of pattern 3 over a string. -/
def searchDocs : Str → Option Str
  | [] => none
  | c :: rest =>
    match matchDocs (c :: rest) with
    | some run => some run
    | none => searchDocs rest

/-- The f-string `https://drive.google.com/uc?export=download&id={file_id}`. -/
def ucTemplate (fid : Str) : Str := ucHost ++ fid

/-- `MovieBot.convert_drive_url` (src/main.py lines 52-68): the for-loop over
the three patterns unrolled; the first pattern that matches wins and its
captured file id is substituted into the template; otherwise the input is
returned as-is. -/
def convert_drive_url (url : Str) : Str :=
  match searchLitId fileLit url with
  | some fid => ucTemplate fid
  | none =>
    match searchLitId openLit url with
    | some fid => ucTemplate fid
    | none =>
      match searchDocs url with
      | some fid => ucTemplate fid
      | none => url

/-! ### Registry and name resolution -/

/-- The in-memory movie registry `MovieBot.movie_list`: a name-to-locator
mapping whose iteration order is insertion order (a Python dict). -/
abbrev Registry := List (Str × Str)

/-- Python `s.lower()` restricted to the ASCII case mapping. -/
def lowerStr (s : Str) : Str := s.map Char.toLower

/-- Python `s.replace(c, "")`: delete every occurrence of a character. -/
def removeChar (c : Char) (s : Str) : Str := s.filter (fun d => d != c)

/-- The folding applied by `get_movie_url` (line 72 and 74):
`lower().replace(" ", "").replace("-", "").replace("_", "")`. -/
def fold (s : Str) : Str :=
  removeChar '_' (removeChar '-' (removeChar ' ' (lowerStr s)))

/-- `MovieBot.get_movie_url` (lines 70-76): fold the query, scan the
registry items in insertion order, and return the converted locator of the
first key whose fold equals the folded query; `None` when no key matches. -/
def get_movie_url (movie_list : Registry) (movie_name : Str) : Option Str :=
  match movie_list.find? (fun kv => fold kv.1 == fold movie_name) with
  | some kv => some (convert_drive_url kv.2)
  | none => none

/-- `MovieBot.list_movies` (lines 86-88): the registry keys in insertion
order. -/
def list_movies (movie_list : Registry) : List Str :=
  movie_list.map (fun kv => kv.1)

/-- Python substring containment `needle in haystack`. -/
def containsSub (needle : Str) : Str → Bool
  | [] => litMatch needle []
  | c :: rest => litMatch needle (c :: rest) || containsSub needle rest

/-- The fixed literal 25 of `movie_autocomplete` (Discord shows at most 25
choices). -/
def autocompleteLimit : Nat := 25

/-- `movie_autocomplete` (lines 102-132): with empty input, the first 25
movies; otherwise the two accumulation loops (keys whose lower-cased form
starts with the lower-cased input, then keys that contain it but do not
start with it), truncated to 25.  The loops `filtered.append(movie)` are
modelled by left folds that append to the accumulator. -/
def movie_autocomplete (movie_list : Registry) (current : Str) : List Str :=
  let movies := list_movies movie_list
  if current = [] then movies.take autocompleteLimit
  else
    let cl := lowerStr current
    let fA := movies.foldl
      (fun acc movie => if litMatch cl (lowerStr movie) then acc ++ [movie] else acc) []
    let fB := movies.foldl
      (fun acc movie =>
        if containsSub cl (lowerStr movie) && !litMatch cl (lowerStr movie) then
          acc ++ [movie]
        else acc) fA
    fB.take autocompleteLimit

/-- Outcome of the `remove_movie` handler. -/
inductive RemoveOutcome where
  | removed (key : Str)
  | notFound
deriving DecidableEq

/-- `remove_movie` (lines 369-393, the registry logic of lines 379-393):
find the first key equal to the query up to lower-casing only (spaces,
hyphens and underscores stay significant); delete it, or report not-found. -/
def remove_movie (movie_list : Registry) (name : Str) : RemoveOutcome × Registry :=
  match movie_list.find? (fun kv => lowerStr kv.1 == lowerStr name) with
  | some kv => (.removed kv.1, movie_list.filter (fun p => p.1 != kv.1))
  | none => (.notFound, movie_list)

/-! ### Session tracker

The per-guild state of the bot lives in `movie_bot.current_streams`, a dict
from guild id to voice-client object.  Voice clients are modelled by abstract
identifiers; the live state of a voice client at the moment an operation
runs (its `channel` attribute, possibly `None`, holding the member list) is
passed in as a function, because Python reads it off the live object. -/

abbrev GuildId := Nat

/-- An identifier naming one voice-client object. -/
abbrev VcId := Nat

/-- A member of a voice channel; only the `bot` flag is relevant. -/
structure Member where
  bot : Bool
deriving DecidableEq

/-- The state of a `voice_client.channel` attribute when it is not `None`. -/
structure VoiceChannel where
  members : List Member
deriving DecidableEq

/-- `movie_bot.current_streams`: guild id to voice client, insertion
ordered. -/
abbrev SessionTable := List (GuildId × VcId)

/-- Dict lookup `current_streams[guild_id]`. -/
def lookupVC : SessionTable → GuildId → Option VcId
  | [], _ => none
  | (g0, v) :: rest, g => if g0 = g then some v else lookupVC rest g

/-- Dict membership `guild_id in current_streams`. -/
def containsKey (t : SessionTable) (g : GuildId) : Bool :=
  (lookupVC t g).isSome

/-- Dict deletion `del current_streams[guild_id]`. -/
def eraseSession (t : SessionTable) (g : GuildId) : SessionTable :=
  t.filter (fun p => p.1 != g)

/-- Dict assignment `current_streams[guild_id] = vc`: replace in place when
the key exists, append otherwise. -/
def insertSession (t : SessionTable) (g : GuildId) (v : VcId) : SessionTable :=
  if containsKey t g then t.map (fun p => if p.1 = g then (g, v) else p)
  else t ++ [(g, v)]

/-- Outcome of the session fragment of the `play_movie` handler. -/
inductive StartOutcome where
  | alreadyActive
  | urlIssue
  | started
deriving DecidableEq

/-- The session fragment of `play_movie` (lines 173-205).  The earlier name
resolution and user-voice-channel checks (lines 152-171) precede this
fragment and are outside the claims.  `st` gives the live `channel`
attribute of each voice client; `verifyOk` is the outcome of the
`verify_url` probe; the voice-channel connect is modelled as succeeding and
yielding the fresh client `newVc`, which is then stored. -/
def play_movie_session (t : SessionTable) (g : GuildId)
    (st : VcId → Option VoiceChannel) (verifyOk : Bool) (newVc : VcId) :
    StartOutcome × SessionTable :=
  match lookupVC t g with
  | some vc =>
    if (st vc).isSome then (.alreadyActive, t)
    else if verifyOk then (.started, insertSession t g newVc)
    else (.urlIssue, t)
  | none =>
    if verifyOk then (.started, insertSession t g newVc)
    else (.urlIssue, t)

/-- Outcome of the `stop_movie` handler. -/
inductive StopOutcome where
  | notActive
  | stopped (vc : VcId)
  | errored
deriving DecidableEq

/-- `stop_movie` (lines 258-284).  When no session exists the handler
reports not-active.  Otherwise it disconnects the stored voice client and
only then deletes the table entry; `disconnectOk` is false when
`voice_client.disconnect()` raises, in which case the `except` branch runs
and the entry survives.  The released client is reported in the outcome. -/
def stop_movie (t : SessionTable) (g : GuildId) (disconnectOk : Bool) :
    StopOutcome × SessionTable :=
  match lookupVC t g with
  | none => (.notActive, t)
  | some vc =>
    if disconnectOk then (.stopped vc, eraseSession t g)
    else (.errored, t)

/-- Outcome of the post-delay idle-eviction re-check. -/
inductive IdleOutcome where
  | evict
  | noop
deriving DecidableEq

/-- The fixed delay of `asyncio.sleep(30)` in `on_voice_state_update`
(line 491). -/
def idle_delay : Nat := 30

/-- The post-delay body of `on_voice_state_update` (lines 493-500): `vc` is
the voice client captured before the sleep; `st` gives the live `channel`
attribute at fire time.  Evict (disconnect and delete) only when the
captured client still has a channel, the guild still has a table entry, and
the channel holds zero non-bot members; otherwise nothing happens. -/
def idle_check (t : SessionTable) (g : GuildId) (vc : VcId)
    (st : VcId → Option VoiceChannel) : SessionTable × IdleOutcome :=
  match st vc with
  | some ch =>
    if containsKey t g then
      if (ch.members.filter (fun m => !m.bot)).length = 0 then
        (eraseSession t g, .evict)
      else (t, .noop)
    else (t, .noop)
  | none => (t, .noop)

/-! ### Lemmas about the normalizer -/

/-- The constant part of the template splits at its unique colon. -/
def ucRest : Str := str "//drive.google.com/uc?export=download&id="

def fileRest : Str := str "//drive.google.com/file/d/"
def openRest : Str := str "//drive.google.com/open?id="
def docsRest : Str := str "//docs.google.com/"

theorem idRun_all_id : ∀ (s : Str) (c : Char), c ∈ idRun s → isIdChar c = true := by
  intro s
  induction s with
  | nil => intro c hc; simp [idRun] at hc
  | cons a as ih =>
    intro c hc
    cases ha : isIdChar a with
    | true =>
      simp [idRun, ha] at hc
      cases hc with
      | inl h => rw [h]; exact ha
      | inr h => exact ih c h
    | false => simp [idRun, ha] at hc

theorem litIdAt_all_id : ∀ (lit s fid : Str), litIdAt lit s = some fid →
    ∀ c ∈ fid, isIdChar c = true := by
  intro lit s fid h c hc
  cases hm : litMatch lit s with
  | false => simp [litIdAt, hm] at h
  | true =>
    by_cases he : idRun (s.drop lit.length) = []
    · simp [litIdAt, hm, he] at h
    · simp [litIdAt, hm, he] at h
      rw [← h] at hc
      exact idRun_all_id _ c hc

theorem searchLitId_all_id : ∀ (lit s fid : Str), searchLitId lit s = some fid →
    ∀ c ∈ fid, isIdChar c = true := by
  intro lit s
  induction s with
  | nil => intro fid h; exact litIdAt_all_id lit [] fid h
  | cons a as ih =>
    intro fid h
    cases hm : litIdAt lit (a :: as) with
    | some run =>
      simp only [searchLitId, hm] at h
      injection h with h
      rw [← h]
      exact litIdAt_all_id lit (a :: as) run hm
    | none =>
      simp only [searchLitId, hm] at h
      exact ih fid h

theorem docsTail_all_id : ∀ (s fid : Str), docsTail s = some fid →
    ∀ c ∈ fid, isIdChar c = true := by
  intro s
  induction s with
  | nil => intro fid h; simp [docsTail] at h
  | cons a as ih =>
    intro fid h
    cases hm : litIdAt dSep (a :: as) with
    | some run =>
      simp only [docsTail, hm] at h
      injection h with h
      rw [← h]
      exact litIdAt_all_id dSep (a :: as) run hm
    | none =>
      simp only [docsTail, hm] at h
      by_cases ha : a = '\n'
      · simp [ha] at h
      · simp [ha] at h
        exact ih fid h

theorem matchDocs_all_id : ∀ (s fid : Str), matchDocs s = some fid →
    ∀ c ∈ fid, isIdChar c = true := by
  intro s fid h
  cases hm : litMatch docsLit s with
  | false => simp [matchDocs, hm] at h
  | true =>
    simp only [matchDocs, hm, if_true] at h
    exact docsTail_all_id _ fid h

theorem searchDocs_all_id : ∀ (s fid : Str), searchDocs s = some fid →
    ∀ c ∈ fid, isIdChar c = true := by
  intro s
  induction s with
  | nil => intro fid h; simp [searchDocs] at h
  | cons a as ih =>
    intro fid h
    cases hm : matchDocs (a :: as) with
    | some run =>
      simp only [searchDocs, hm] at h
      injection h with h
      rw [← h]
      exact matchDocs_all_id (a :: as) run hm
    | none =>
      simp only [searchDocs, hm] at h
      exact ih fid h

theorem litMatch_exists_append :
    ∀ (lit t : Str), litMatch lit t = true → ∃ v, lit ++ v = t := by
  intro lit
  induction lit with
  | nil => intro t _; exact ⟨t, rfl⟩
  | cons a as ih =>
    intro t h
    cases t with
    | nil => simp [litMatch] at h
    | cons b bs =>
      simp only [litMatch, Bool.and_eq_true, beq_iff_eq] at h
      obtain ⟨hab, hm⟩ := h
      obtain ⟨v, hv⟩ := ih bs hm
      exact ⟨v, by rw [List.cons_append, hab, hv]⟩

/-- In a list containing a single occurrence of `c`, a split at `c` is
unique. -/
theorem single_occ :
    ∀ (p a1 : Str) (c : Char) (q a2 : Str), c ∉ a1 → c ∉ a2 →
      p ++ c :: q = a1 ++ c :: a2 → p = a1 := by
  intro p
  induction p with
  | nil =>
    intro a1 c q a2 h1 _ heq
    cases a1 with
    | nil => rfl
    | cons x a1' =>
      rw [List.nil_append, List.cons_append] at heq
      injection heq with hx _
      subst hx
      exact absurd (List.mem_cons_self c a1') h1
  | cons y p' ih =>
    intro a1 c q a2 h1 h2 heq
    cases a1 with
    | nil =>
      rw [List.nil_append, List.cons_append] at heq
      injection heq with hy htail
      exact absurd (htail ▸ List.mem_append_right p' (List.mem_cons_self c q)) h2
    | cons x a1' =>
      rw [List.cons_append, List.cons_append] at heq
      injection heq with hx htail
      have hp := ih a1' c q a2 (fun hm => h1 (List.mem_cons_of_mem x hm)) h2 htail
      rw [hx, hp]

theorem take_length_append_eq : ∀ (l1 l2 : Str), (l1 ++ l2).take l1.length = l1 := by
  intro l1 l2
  induction l1 with
  | nil => rfl
  | cons a as ih => simp [List.take_succ_cons, ih]

theorem take_append_of_le_len :
    ∀ (l1 l2 : Str) (n : Nat), n ≤ l1.length → (l1 ++ l2).take n = l1.take n := by
  intro l1
  induction l1 with
  | nil =>
    intro l2 n hn
    simp at hn
    simp [hn]
  | cons a as ih =>
    intro l2 n hn
    cases n with
    | zero => rfl
    | succ m =>
      simp only [List.cons_append, List.take_succ_cons]
      rw [ih l2 m (by simpa using hn)]

/-- No pattern literal (each of which starts `https:` and is not an initial
segment of the template host) occurs anywhere in a produced template URL,
because its file-id suffix contains no colon. -/
theorem litMatch_template_false (lit b : Str)
    (hlit : lit = httpsLit ++ ':' :: b)
    (hne : lit ≠ ucHost.take lit.length)
    (hlen : lit.length ≤ ucHost.length)
    (fid : Str) (hid : ∀ c ∈ fid, isIdChar c = true) :
    ∀ t u, u ++ t = ucHost ++ fid → litMatch lit t = false := by
  intro t u hut
  cases hb : litMatch lit t with
  | false => rfl
  | true =>
    exfalso
    obtain ⟨v, hv⟩ := litMatch_exists_append lit t hb
    have heq : u ++ (lit ++ v) = ucHost ++ fid := by rw [hv]; exact hut
    have hfidc : ':' ∉ fid := by
      intro hc
      have := hid ':' hc
      simp [isIdChar] at this
    have hsplit : (u ++ httpsLit) ++ ':' :: (b ++ v) = httpsLit ++ ':' :: (ucRest ++ fid) := by
      have hdec : ucHost = httpsLit ++ ':' :: ucRest := by decide
      rw [hlit] at heq
      rw [hdec] at heq
      simpa [List.append_assoc] using heq
    have hu1 : u ++ httpsLit = httpsLit := by
      apply single_occ (u ++ httpsLit) httpsLit ':' (b ++ v) (ucRest ++ fid)
      · decide
      · intro hc
        rcases List.mem_append.mp hc with h | h
        · revert h; decide
        · exact hfidc h
      · exact hsplit
    have hu0 : u = [] := by
      have hlu := congrArg List.length hu1
      rw [List.length_append] at hlu
      have : u.length = 0 := by omega
      exact List.length_eq_zero.mp this
    rw [hu0, List.nil_append] at heq
    have htake : lit = ucHost.take lit.length := by
      calc lit = (lit ++ v).take lit.length := (take_length_append_eq lit v).symm
        _ = (ucHost ++ fid).take lit.length := by rw [heq]
        _ = ucHost.take lit.length := take_append_of_le_len ucHost fid lit.length hlen
    exact hne htake

theorem searchLitId_none_of (lit : Str) :
    ∀ s, (∀ t u, u ++ t = s → litMatch lit t = false) → searchLitId lit s = none := by
  intro s
  induction s with
  | nil =>
    intro h
    have h0 : litMatch lit [] = false := h [] [] rfl
    simp [searchLitId, litIdAt, h0]
  | cons c rest ih =>
    intro h
    have h0 : litMatch lit (c :: rest) = false := h (c :: rest) [] rfl
    have hrec : searchLitId lit rest = none := by
      apply ih
      intro t u hu
      apply h t (c :: u)
      rw [List.cons_append, hu]
    simp [searchLitId, litIdAt, h0, hrec]

theorem searchDocs_none_of :
    ∀ s, (∀ t u, u ++ t = s → litMatch docsLit t = false) → searchDocs s = none := by
  intro s
  induction s with
  | nil => intro _; rfl
  | cons c rest ih =>
    intro h
    have h0 : litMatch docsLit (c :: rest) = false := h (c :: rest) [] rfl
    have hrec : searchDocs rest = none := by
      apply ih
      intro t u hu
      apply h t (c :: u)
      rw [List.cons_append, hu]
    simp [searchDocs, matchDocs, h0, hrec]

/-- A URL already in the produced canonical form is a fixed point of the
normalizer. -/
theorem convert_template_fixed (fid : Str) (hid : ∀ c ∈ fid, isIdChar c = true) :
    convert_drive_url (ucHost ++ fid) = ucHost ++ fid := by
  have h1 : searchLitId fileLit (ucHost ++ fid) = none :=
    searchLitId_none_of fileLit _ (fun t u hut =>
      litMatch_template_false fileLit fileRest (by decide) (by decide) (by decide)
        fid hid t u hut)
  have h2 : searchLitId openLit (ucHost ++ fid) = none :=
    searchLitId_none_of openLit _ (fun t u hut =>
      litMatch_template_false openLit openRest (by decide) (by decide) (by decide)
        fid hid t u hut)
  have h3 : searchDocs (ucHost ++ fid) = none :=
    searchDocs_none_of _ (fun t u hut =>
      litMatch_template_false docsLit docsRest (by decide) (by decide) (by decide)
        fid hid t u hut)
  unfold convert_drive_url
  rw [h1, h2, h3]

/-! ### Claim theorems for the normalizer -/

/-- C5: `convert_drive_url` applies its pattern rules in their fixed listed
order and the first rule whose pattern matches wins; its captured file id
is substituted into the canonical template and no further rules are tried;
an input matching none of the three patterns is returned unchanged. -/
theorem normalize_first_rule_wins (url : Str) :
    (∀ fid, searchLitId fileLit url = some fid →
      convert_drive_url url = ucTemplate fid) ∧
    (∀ fid, searchLitId fileLit url = none → searchLitId openLit url = some fid →
      convert_drive_url url = ucTemplate fid) ∧
    (∀ fid, searchLitId fileLit url = none → searchLitId openLit url = none →
      searchDocs url = some fid → convert_drive_url url = ucTemplate fid) ∧
    (searchLitId fileLit url = none → searchLitId openLit url = none →
      searchDocs url = none → convert_drive_url url = url) := by
  refine ⟨?_, ?_, ?_, ?_⟩
  · intro fid h1
    unfold convert_drive_url
    rw [h1]
  · intro fid h1 h2
    unfold convert_drive_url
    rw [h1, h2]
  · intro fid h1 h2 h3
    unfold convert_drive_url
    rw [h1, h2, h3]
  · intro h1 h2 h3
    unfold convert_drive_url
    rw [h1, h2, h3]

theorem normalize_first_rule_wins_witness :
    convert_drive_url (str "https://drive.google.com/file/d/abc") =
      ucTemplate (str "abc") ∧
    convert_drive_url (str "no match here") = str "no match here" := by
  constructor
  · exact (normalize_first_rule_wins (str "https://drive.google.com/file/d/abc")).1
      (str "abc") (by decide)
  · exact (normalize_first_rule_wins (str "no match here")).2.2.2
      (by decide) (by decide) (by decide)

/-- C6: the normalizer is pure (a function) and idempotent on every input:
a recognized share link is rewritten to the canonical template, which no
pattern matches again, and an unrecognized input is returned unchanged. -/
theorem normalize_idempotent :
    ∀ url, convert_drive_url (convert_drive_url url) = convert_drive_url url := by
  intro url
  cases h1 : searchLitId fileLit url with
  | some fid =>
    have hc : convert_drive_url url = ucTemplate fid := by
      unfold convert_drive_url
      rw [h1]
    rw [hc]
    exact convert_template_fixed fid (searchLitId_all_id fileLit url fid h1)
  | none =>
    cases h2 : searchLitId openLit url with
    | some fid =>
      have hc : convert_drive_url url = ucTemplate fid := by
        unfold convert_drive_url
        rw [h1, h2]
      rw [hc]
      exact convert_template_fixed fid (searchLitId_all_id openLit url fid h2)
    | none =>
      cases h3 : searchDocs url with
      | some fid =>
        have hc : convert_drive_url url = ucTemplate fid := by
          unfold convert_drive_url
          rw [h1, h2, h3]
        rw [hc]
        exact convert_template_fixed fid (searchDocs_all_id url fid h3)
      | none =>
        have hc : convert_drive_url url = url := by
          unfold convert_drive_url
          rw [h1, h2, h3]
        rw [hc, hc]

/-! ### Lemmas about the resolver -/

theorem get_movie_url_eq (R : Registry) (q : Str) :
    get_movie_url R q =
      (R.find? (fun kv => fold kv.1 == fold q)).map (fun kv => convert_drive_url kv.2) := by
  unfold get_movie_url
  cases R.find? (fun kv => fold kv.1 == fold q) <;> rfl

/-- The first entry whose key folds like the query is the one `find?`
returns, regardless of what comes after it. -/
theorem find_skip_nonmatch :
    ∀ (R1 R2 : Registry) (k u q : Str), (∀ p ∈ R1, fold p.1 ≠ fold q) →
      fold k = fold q →
      (R1 ++ (k, u) :: R2).find? (fun kv => fold kv.1 == fold q) = some (k, u) := by
  intro R1
  induction R1 with
  | nil =>
    intro R2 k u q _ hk
    rw [List.nil_append]
    exact List.find?_cons_of_pos R2 (beq_iff_eq.mpr hk)
  | cons p R1' ih =>
    intro R2 k u q h hk
    have hfneg : ¬((fold p.1 == fold q) = true) := by
      intro hb
      exact h p (List.mem_cons_self p R1') (beq_iff_eq.mp hb)
    have hstep : (p :: (R1' ++ (k, u) :: R2)).find? (fun kv => fold kv.1 == fold q) =
        (R1' ++ (k, u) :: R2).find? (fun kv => fold kv.1 == fold q) :=
      List.find?_cons_of_neg _ hfneg
    rw [List.cons_append, hstep]
    exact ih R2 k u q (fun p' hp' => h p' (List.mem_cons_of_mem p hp')) hk

/-- Under fold-distinct keys, `find?` returns exactly the entry of the
member key the query folds to. -/
theorem find_first_fold_match :
    ∀ (R : Registry) (q n u : Str), R.Pairwise (fun a b => fold a.1 ≠ fold b.1) →
      (n, u) ∈ R → fold q = fold n →
      R.find? (fun kv => fold kv.1 == fold q) = some (n, u) := by
  intro R
  induction R with
  | nil => intro q n u _ hmem _; simp at hmem
  | cons p R' ih =>
    intro q n u hpw hmem hq
    obtain ⟨hhead, htail⟩ := List.pairwise_cons.mp hpw
    rcases List.mem_cons.mp hmem with hp | hmem'
    · subst hp
      exact List.find?_cons_of_pos R' (beq_iff_eq.mpr hq.symm)
    · have hfneg : ¬((fold p.1 == fold q) = true) := by
        intro hb
        have h1 : fold p.1 ≠ fold n := hhead (n, u) hmem'
        exact h1 (hq ▸ beq_iff_eq.mp hb)
      have hstep : (p :: R').find? (fun kv => fold kv.1 == fold q) =
          R'.find? (fun kv => fold kv.1 == fold q) :=
        List.find?_cons_of_neg _ hfneg
      rw [hstep]
      exact ih q n u htail hmem' hq

/-! ### Claim theorems for the resolver -/

/-- C1 counterexample: the resolver does not return the stored locator
verbatim; a stored Drive share link is rewritten by the normalizer before
being returned. -/
theorem resolve_not_raw_locator_cex :
    get_movie_url [(str "x", str "https://drive.google.com/file/d/abc")] (str "x") ≠
      some (str "https://drive.google.com/file/d/abc") := by decide

/-- C1, amended: for a registry with pairwise fold-distinct keys, resolving
any whitespace/case/hyphen/underscore variant of a stored name returns the
stored locator passed through the share-link normalizer, and a query whose
fold matches no key fold resolves to none. -/
theorem resolve_fold_lookup (R : Registry) (q : Str) :
    ((∀ p ∈ R, fold p.1 ≠ fold q) → get_movie_url R q = none) ∧
    (∀ n u, R.Pairwise (fun a b => fold a.1 ≠ fold b.1) → (n, u) ∈ R →
      fold q = fold n → get_movie_url R q = some (convert_drive_url u)) := by
  constructor
  · intro h
    have hf : R.find? (fun kv => fold kv.1 == fold q) = none := by
      rw [List.find?_eq_none]
      intro x hx hb
      exact h x hx (beq_iff_eq.mp hb)
    rw [get_movie_url_eq, hf]
    rfl
  · intro n u hpw hmem hq
    rw [get_movie_url_eq, find_first_fold_match R q n u hpw hmem hq]
    rfl

theorem resolve_fold_lookup_witness :
    get_movie_url [] (str "q") = none ∧
    get_movie_url [(str "Some Movie", str "u1")] (str "some_MOVIE") =
      some (convert_drive_url (str "u1")) := by
  constructor
  · exact (resolve_fold_lookup [] (str "q")).1 (by simp)
  · exact (resolve_fold_lookup [(str "Some Movie", str "u1")] (str "some_MOVIE")).2
      (str "Some Movie") (str "u1") (by simp) (by simp) (by decide)

/-- C8 counterexample: even for the first stored match, the resolver
returns the normalized locator, not the stored value u1 itself, whenever u1
is a recognizable share link. -/
theorem resolve_first_match_raw_cex :
    get_movie_url [(str "Superman", str "https://drive.google.com/file/d/abc"),
        (str "superman returns", str "u2")] (str "Superman") ≠
      some (str "https://drive.google.com/file/d/abc") := by decide

/-- C8, amended: when several keys fold identically, the resolver uses the
first stored match in insertion order and returns the normalizer applied to
its locator. -/
theorem resolve_first_match_normalized :
    ∀ (R1 R2 : Registry) (k u q : Str), (∀ p ∈ R1, fold p.1 ≠ fold q) →
      fold k = fold q →
      get_movie_url (R1 ++ (k, u) :: R2) q = some (convert_drive_url u) := by
  intro R1 R2 k u q h hk
  rw [get_movie_url_eq, find_skip_nonmatch R1 R2 k u q h hk]
  rfl

theorem resolve_first_match_normalized_witness :
    get_movie_url [(str "Superman", str "u1"), (str "superman returns", str "u2")]
      (str "Superman") = some (convert_drive_url (str "u1")) := by
  exact resolve_first_match_normalized [] [(str "superman returns", str "u2")]
    (str "Superman") (str "u1") (str "Superman") (by simp) (by decide)

/-! ### Lemmas about the session table -/

theorem lookupVC_erase : ∀ (t : SessionTable) (g : GuildId),
    lookupVC (eraseSession t g) g = none := by
  intro t g
  induction t with
  | nil => rfl
  | cons p rest ih =>
    obtain ⟨g0, v⟩ := p
    by_cases hg : g0 = g
    · have he : eraseSession ((g0, v) :: rest) g = eraseSession rest g := by
        simp [eraseSession, List.filter_cons, hg]
      rw [he]
      exact ih
    · have he : eraseSession ((g0, v) :: rest) g = (g0, v) :: eraseSession rest g := by
        simp [eraseSession, List.filter_cons, hg]
      rw [he]
      simp [lookupVC, hg]
      exact ih

/-! ### Claim theorems for the session tracker -/

/-- C3 counterexample: with an existing session entry whose voice client
has no channel, a second start does not report already-active; it proceeds
and overwrites the stored entry. -/
theorem start_channelless_overwrite_cex :
    play_movie_session [(1, 7)] 1 (fun _ => none) true 9 =
      (StartOutcome.started, [(1, 9)]) ∧
    (play_movie_session [(1, 7)] 1 (fun _ => none) true 9).1 ≠
      StartOutcome.alreadyActive := by decide

/-- C3, amended: start reports already-active, leaving the table unchanged,
exactly when an entry exists for the guild and its voice client still has a
channel; with no entry, or with an entry whose client has no channel, a
successful start stores the new voice client for the guild. -/
theorem start_already_active_spec (t : SessionTable) (g : GuildId)
    (st : VcId → Option VoiceChannel) (h : VcId) :
    (∀ vc, lookupVC t g = some vc → (st vc).isSome = true →
      ∀ vOk, play_movie_session t g st vOk h = (.alreadyActive, t)) ∧
    (lookupVC t g = none →
      play_movie_session t g st true h = (.started, insertSession t g h)) ∧
    (∀ vc, lookupVC t g = some vc → st vc = none →
      play_movie_session t g st true h = (.started, insertSession t g h)) := by
  refine ⟨?_, ?_, ?_⟩
  · intro vc hv hch vOk
    simp [play_movie_session, hv, hch]
  · intro hv
    simp [play_movie_session, hv]
  · intro vc hv hch
    simp [play_movie_session, hv, hch]

theorem start_already_active_spec_witness :
    play_movie_session [(1, 7)] 1 (fun _ => some ⟨[]⟩) true 9 =
      (StartOutcome.alreadyActive, [(1, 7)]) ∧
    play_movie_session [] 1 (fun _ => some ⟨[]⟩) true 9 =
      (StartOutcome.started, [(1, 9)]) := by
  constructor
  · exact (start_already_active_spec [(1, 7)] 1 (fun _ => some ⟨[]⟩) 9).1 7 rfl rfl true
  · exact (start_already_active_spec [] 1 (fun _ => some ⟨[]⟩) 9).2.1 rfl

/-- C4: stop with no session reports not-active and changes nothing (hence
a second consecutive stop reports not-active); stop with a session (whose
disconnect succeeds) removes the entry and reports the released client. -/
theorem stop_spec (t : SessionTable) (g : GuildId) :
    (lookupVC t g = none → ∀ ok, stop_movie t g ok = (.notActive, t)) ∧
    (∀ vc, lookupVC t g = some vc →
      stop_movie t g true = (.stopped vc, eraseSession t g)) ∧
    (∀ vc, lookupVC t g = some vc →
      (stop_movie (stop_movie t g true).2 g true).1 = .notActive) := by
  refine ⟨?_, ?_, ?_⟩
  · intro h ok
    simp [stop_movie, h]
  · intro vc h
    simp [stop_movie, h]
  · intro vc h
    have h2 : (stop_movie t g true).2 = eraseSession t g := by simp [stop_movie, h]
    rw [h2]
    simp [stop_movie, lookupVC_erase]

theorem stop_spec_witness :
    stop_movie [] 1 true = (.notActive, []) ∧
    stop_movie [(1, 7)] 1 true = (.stopped 7, []) ∧
    (stop_movie (stop_movie [(1, 7)] 1 true).2 1 true).1 = .notActive := by
  refine ⟨(stop_spec [] 1).1 rfl true, ?_, (stop_spec [(1, 7)] 1).2.2 7 rfl⟩
  exact (stop_spec [(1, 7)] 1).2.1 7 rfl

/-- C10: when the disconnect raises during stop, the session entry is not
removed, so a later stop still finds and removes the same session. -/
theorem stop_error_preserves_session (t : SessionTable) (g : GuildId) (vc : VcId)
    (h : lookupVC t g = some vc) :
    stop_movie t g false = (.errored, t) ∧
    (stop_movie (stop_movie t g false).2 g true).1 = .stopped vc := by
  have h1 : stop_movie t g false = (.errored, t) := by simp [stop_movie, h]
  refine ⟨h1, ?_⟩
  rw [h1]
  simp [stop_movie, h]

theorem stop_error_preserves_session_witness :
    stop_movie [(1, 7)] 1 false = (.errored, [(1, 7)]) ∧
    (stop_movie (stop_movie [(1, 7)] 1 false).2 1 true).1 = .stopped 7 :=
  stop_error_preserves_session [(1, 7)] 1 7 rfl

/-- C2: the idle-eviction re-check fires after the fixed 30-unit delay and
re-reads live state: it removes the session and evicts exactly when the
captured client still has a channel with zero non-bot occupants and the
guild still has a table entry; with a human present, or no entry, or no
channel, it does nothing and the table is unchanged. -/
theorem idle_check_spec (t : SessionTable) (g : GuildId) (vc : VcId)
    (st : VcId → Option VoiceChannel) :
    idle_delay = 30 ∧
    (∀ ch, st vc = some ch → containsKey t g = true →
      (ch.members.filter (fun m => !m.bot)).length = 0 →
      idle_check t g vc st = (eraseSession t g, .evict)) ∧
    (∀ ch, st vc = some ch → (ch.members.filter (fun m => !m.bot)).length ≠ 0 →
      idle_check t g vc st = (t, .noop)) ∧
    (containsKey t g = false → idle_check t g vc st = (t, .noop)) ∧
    (st vc = none → idle_check t g vc st = (t, .noop)) ∧
    ((idle_check t g vc st).2 = .evict → containsKey t g = true ∧
      ∃ ch, st vc = some ch ∧ (ch.members.filter (fun m => !m.bot)).length = 0) := by
  refine ⟨rfl, ?_, ?_, ?_, ?_, ?_⟩
  · intro ch hst hck hlen
    simp [idle_check, hst, hck, hlen]
  · intro ch hst hlen
    cases hck : containsKey t g with
    | true => simp [idle_check, hst, hck, hlen]
    | false => simp [idle_check, hst, hck]
  · intro hck
    cases hst : st vc with
    | some ch => simp [idle_check, hst, hck]
    | none => simp [idle_check, hst]
  · intro hst
    simp [idle_check, hst]
  · intro hev
    cases hst : st vc with
    | none => simp [idle_check, hst] at hev
    | some ch =>
      cases hck : containsKey t g with
      | false => simp [idle_check, hst, hck] at hev
      | true =>
        by_cases hlen : (ch.members.filter (fun m => !m.bot)).length = 0
        · exact ⟨rfl, ch, rfl, hlen⟩
        · simp [idle_check, hst, hck, hlen] at hev

theorem idle_check_spec_witness :
    idle_check [(1, 7)] 1 7 (fun _ => some ⟨[]⟩) = ([], .evict) ∧
    idle_check [(1, 7)] 1 7 (fun _ => some ⟨[⟨false⟩]⟩) = ([(1, 7)], .noop) := by
  constructor
  · exact (idle_check_spec [(1, 7)] 1 7 (fun _ => some ⟨[]⟩)).2.1 ⟨[]⟩ rfl rfl rfl
  · exact (idle_check_spec [(1, 7)] 1 7 (fun _ => some ⟨[⟨false⟩]⟩)).2.2.1
      ⟨[⟨false⟩]⟩ rfl (by decide)

/-! ### Lemmas and claim theorems for autocomplete and removal -/

theorem foldl_append_filter (p : Str → Bool) :
    ∀ (l : List Str) (acc : List Str),
      l.foldl (fun acc m => if p m then acc ++ [m] else acc) acc = acc ++ l.filter p := by
  intro l
  induction l with
  | nil => intro acc; simp
  | cons x xs ih =>
    intro acc
    cases hp : p x with
    | true => simp [List.foldl_cons, hp, ih, List.filter_cons, List.append_assoc]
    | false => simp [List.foldl_cons, hp, ih, List.filter_cons]

/-- C7: with empty input the autocomplete offers the first 25 registry keys
in insertion order; with nonempty input it offers the keys whose lower-cased
form starts with the lower-cased input, in insertion order, followed by
those that contain it without starting with it, in insertion order,
truncated to the fixed limit of 25. -/
theorem autocomplete_spec (R : Registry) (current : Str) :
    autocompleteLimit = 25 ∧
    (current = [] → movie_autocomplete R current =
      (list_movies R).take autocompleteLimit) ∧
    (current ≠ [] → movie_autocomplete R current =
      ((list_movies R).filter (fun m => litMatch (lowerStr current) (lowerStr m)) ++
       (list_movies R).filter (fun m =>
         containsSub (lowerStr current) (lowerStr m) &&
           !litMatch (lowerStr current) (lowerStr m))).take autocompleteLimit) := by
  refine ⟨rfl, ?_, ?_⟩
  · intro h
    simp [movie_autocomplete, h]
  · intro h
    simp only [movie_autocomplete, if_neg h]
    rw [foldl_append_filter, foldl_append_filter]
    rw [List.nil_append]

theorem autocomplete_spec_witness :
    movie_autocomplete [(str "Alpha", str "u1"), (str "Beta", str "u2")] [] =
      [str "Alpha", str "Beta"] ∧
    movie_autocomplete [(str "Alpha", str "u1"), (str "Beta", str "u2"),
        (str "Gamma-al", str "u3")] (str "al") = [str "Alpha", str "Gamma-al"] := by
  constructor
  · exact (autocomplete_spec [(str "Alpha", str "u1"), (str "Beta", str "u2")] []).2.1 rfl
  · have h := (autocomplete_spec [(str "Alpha", str "u1"), (str "Beta", str "u2"),
        (str "Gamma-al", str "u3")] (str "al")).2.2 (by decide)
    rw [h]
    decide

/-- C9: removal succeeds exactly when some registry key equals the query up
to lower-casing of the whole name (spaces, hyphens and underscores stay
significant); hence a query variant that resolves via folding can still
fail removal. -/
theorem remove_case_insensitive_exact (R : Registry) (q : Str) :
    ((∃ kv ∈ R, lowerStr kv.1 = lowerStr q) → (remove_movie R q).1 ≠ .notFound) ∧
    ((remove_movie R q).1 ≠ .notFound → ∃ kv ∈ R, lowerStr kv.1 = lowerStr q) ∧
    (∃ R0 q0, (get_movie_url R0 q0).isSome = true ∧
      (remove_movie R0 q0).1 = .notFound) := by
  have hiff : ((remove_movie R q).1 ≠ RemoveOutcome.notFound) ↔
      ∃ kv ∈ R, lowerStr kv.1 = lowerStr q := by
    constructor
    · intro hne
      cases h : R.find? (fun kv => lowerStr kv.1 == lowerStr q) with
      | none =>
        exfalso
        apply hne
        unfold remove_movie
        rw [h]
      | some kv =>
        have hp := List.find?_some h
        exact ⟨kv, List.mem_of_find?_eq_some h, beq_iff_eq.mp hp⟩
    · rintro ⟨kv, hmem, hlow⟩
      cases h : R.find? (fun kv => lowerStr kv.1 == lowerStr q) with
      | none =>
        rw [List.find?_eq_none] at h
        exact absurd (beq_iff_eq.mpr hlow) (h kv hmem)
      | some kv2 =>
        intro hc
        unfold remove_movie at hc
        rw [h] at hc
        simp at hc
  exact ⟨hiff.mpr, hiff.mp,
    ⟨[(str "Some Movie", str "u1")], str "some-movie", by decide, by decide⟩⟩

theorem remove_case_insensitive_exact_witness :
    (remove_movie [(str "Movie", str "u")] (str "mOvIe")).1 ≠ RemoveOutcome.notFound :=
  (remove_case_insensitive_exact [(str "Movie", str "u")] (str "mOvIe")).1
    ⟨(str "Movie", str "u"), by simp, by decide⟩
